import Mathlib

/-!
Verification of the z-quantum-core expectation-value estimation layer.

This file shallowly embeds the relevant parts of
`src/python/zquantum/core/estimator.py` and
`src/python/zquantum/core/cost_function.py`, together with a model of the
`Gate` serialization layer, and proves the specification claims about them.

Conventions of the embedding:
- OpenFermion Pauli terms are ordered lists of `(qubit_index, basis_letter)`
  factors; a `QubitOperator` is an insertion-ordered association list from
  term to coefficient (mirroring a Python dict).
- Complex coefficients are pairs of rationals `(re, im)`.
- Rotation-gate angles are recorded as rational multiples of `pi`, so
  `RY (-(mkRat 1 2))` stands for `RY(-pi/2)`.
- Python exceptions are modelled with `Except`; mutation of the externally
  owned backend object is modelled by explicit state passing, where the
  backend's `run_circuitset_and_measure` method is an arbitrary function
  from the circuit batch and the pre-call backend state to the post-call
  backend state plus either a result or a raised error.
-/

namespace ZQuantum

/-- Pauli basis letter of a single factor (OpenFermion convention). -/
inductive Basis where
  | X
  | Y
  | Z
deriving DecidableEq, Repr

/-- A single Pauli factor `(qubit_index, basis_letter)`. -/
abbrev Factor := Nat × Basis

/-- A Pauli term: an ordered tuple of factors, as in OpenFermion. -/
abbrev PauliTerm := List Factor

/-- Complex coefficient, modelled as a pair `(re, im)` of rationals. -/
abbrev CC := ℚ × ℚ

/-- Complex addition. -/
def cadd (a b : CC) : CC := (a.1 + b.1, a.2 + b.2)

/-- Complex multiplication. -/
def cmul (a b : CC) : CC := (a.1 * b.1 - a.2 * b.2, a.1 * b.2 + a.2 * b.1)

/-- Complex zero. -/
def czero : CC := (0, 0)

/-- Complex one. -/
def cone : CC := (1, 0)

/-- Sum of a list of complex values (models `np.sum`). -/
def csum (l : List CC) : CC := l.foldl cadd czero

/-- A `QubitOperator`: association list from Pauli term to coefficient, in
dict insertion order. -/
abbrev QubitOp := List (PauliTerm × CC)

/-- An `IsingOperator`: association list from an all-Z term, recorded as its
sorted list of qubit indices, to its coefficient. -/
abbrev IsingOp := List (List Nat × CC)

/-- Insert a qubit index into a sorted key list. -/
def insertSorted (q : Nat) : List Nat → List Nat
  | [] => [q]
  | x :: xs => if q ≤ x then q :: x :: xs else x :: insertSorted q xs

/-- Multiply an all-Z key by `Z_q`: since `Z_q * Z_q = 1`, a qubit already
present cancels, otherwise it is inserted in sorted position. -/
def zmulKey (key : List Nat) (q : Nat) : List Nat :=
  if q ∈ key then key.erase q else insertSorted q key

/-- Scale every coefficient of an `IsingOperator` (models `op * coefficient`). -/
def isingScale (op : IsingOp) (c : CC) : IsingOp :=
  op.map (fun t => (t.1, cmul t.2 c))

/-- Add a single term into an `IsingOperator`, merging an existing equal key
and dropping the term when the merged coefficient is zero, as openfermion's
in-place addition does. -/
def isingAddTerm : IsingOp → List Nat → CC → IsingOp
  | [], key, c => if c = czero then [] else [(key, c)]
  | (k, c0) :: rest, key, c =>
      if k = key then
        if cadd c0 c = czero then rest else (k, cadd c0 c) :: rest
      else (k, c0) :: isingAddTerm rest key c

/-- Addition of `IsingOperator`s (models openfermion `operator += other`). -/
def isingAdd (a b : IsingOp) : IsingOp :=
  b.foldl (fun acc t => isingAddTerm acc t.1 t.2) a

/-- A rotation gate of the context-selection circuits, with its angle recorded
as a rational multiple of `pi`. -/
inductive EGate where
  | RX (anglePi : ℚ) (q : Nat)
  | RY (anglePi : ℚ) (q : Nat)
deriving DecidableEq, Repr

/-- A circuit at the estimator level: the ordered gate list; `Circuit()`
is `[]` and `+` is list append (spec section 4.2). -/
abbrev ECircuit := List EGate

/-- Angle `-pi/2` as a multiple of `pi`. -/
def negHalf : ℚ := -(mkRat 1 2)

/-- Angle `pi/2` as a multiple of `pi`. -/
def posHalf : ℚ := mkRat 1 2

/-- The gates appended for one factor: `X -> RY(-pi/2)`, `Y -> RX(pi/2)`,
`Z -> ` no gate (estimator.py lines 62-66 and 101-105). -/
def factorGates (f : Factor) : List EGate :=
  match f.2 with
  | .X => [EGate.RY negHalf f.1]
  | .Y => [EGate.RX posHalf f.1]
  | .Z => []

/-- The Python exceptions raised by the embedded code. -/
inductive PyErr where
  | valueErrorNotCoMeasurable
  | valueErrorUnrecognizedMethod (method : String)
  | attributeErrorNeedSimulator
  | backendFailure
deriving DecidableEq, Repr

/-- Loop of `get_context_selection_circuit` (estimator.py lines 60-67):
walk the factors, appending the basis-rotation gates and multiplying the
accumulated all-Z operator key by `Z` on the factor's qubit; the operator
starts as `IsingOperator(())`, whose coefficient 1 is carried to the result. -/
def csGo (circ : ECircuit) (key : List Nat) : PauliTerm → ECircuit × IsingOp
  | [] => (circ, [(key, cone)])
  | f :: rest => csGo (circ ++ factorGates f) (zmulKey key f.1) rest

/-- Embedding of `get_context_selection_circuit` (estimator.py lines 45-69). -/
def get_context_selection_circuit (term : PauliTerm) : ECircuit × IsingOp :=
  csGo [] [] term

/-- Conflict test of estimator.py line 94: some factor already in the context
has the same qubit index but a different basis letter. -/
def conflictsB (context : List Factor) (f : Factor) : Bool :=
  context.any (fun e => e.1 == f.1 && e.2 != f.2)

/-- Append a factor to the context unless already present
(estimator.py lines 96-97). -/
def ctxAdd (context : List Factor) (f : Factor) : List Factor :=
  if f ∈ context then context else context ++ [f]

/-- Inner loop of `get_context_selection_circuit_for_group` over the factors
of one term (estimator.py lines 92-98): raise on a conflicting basis
assignment, otherwise extend the context and the all-Z key. -/
def processTerm (context : List Factor) (key : List Nat) :
    PauliTerm → Except PyErr (List Factor × List Nat)
  | [] => .ok (context, key)
  | f :: rest =>
      if conflictsB context f then .error .valueErrorNotCoMeasurable
      else processTerm (ctxAdd context f) (zmulKey key f.1) rest

/-- Outer loop of `get_context_selection_circuit_for_group` over the group's
terms (estimator.py lines 90-99): per term, run the factor loop starting from
`IsingOperator(())` and add the coefficient-scaled all-Z term into the
accumulated operator. -/
def processTerms (context : List Factor) (op : IsingOp) :
    QubitOp → Except PyErr (List Factor × IsingOp)
  | [] => .ok (context, op)
  | (t, c) :: rest =>
      match processTerm context [] t with
      | .error e => .error e
      | .ok (context1, key) =>
          processTerms context1 (isingAdd op (isingScale [(key, cone)] c)) rest

/-- Gate-emission loop of estimator.py lines 101-105: one rotation gate per
context factor with an `X` or `Y` letter, in context order. -/
def contextCircuit (context : List Factor) : ECircuit :=
  context.foldl (fun circ f => circ ++ factorGates f) []

/-- Embedding of `get_context_selection_circuit_for_group`
(estimator.py lines 72-107). -/
def get_context_selection_circuit_for_group (qubit_operator : QubitOp) :
    Except PyErr (ECircuit × IsingOp) :=
  match processTerms [] [] qubit_operator with
  | .error e => .error e
  | .ok (context, op) => .ok (contextCircuit context, op)

/-- Squared magnitude of a complex coefficient, used as the sort key of the
sorted greedy grouping variant. -/
def coeffMag2 (c : CC) : ℚ := c.1 * c.1 + c.2 * c.2

/-- Insert a term into a coefficient-magnitude-descending list. -/
def insertByMag (x : PauliTerm × CC) : QubitOp → QubitOp
  | [] => [x]
  | y :: ys =>
      if coeffMag2 y.2 < coeffMag2 x.2 then x :: y :: ys else y :: insertByMag x ys

/-- Sort terms by descending coefficient magnitude (insertion sort). -/
def sortTermsByMag (ops : QubitOp) : QubitOp := ops.foldr insertByMag []

/-- A term is compatible with a group when no factor of the term clashes with
a factor of a group member on the same qubit with a different letter. -/
def termCompatibleB (t : PauliTerm) (g : QubitOp) : Bool :=
  g.all (fun tc => t.all (fun f => tc.1.all (fun e => !(e.1 == f.1 && e.2 != f.2))))

/-- Place a term into the first compatible group, or open a new group. -/
def placeTerm (t : PauliTerm) (c : CC) : List QubitOp → List QubitOp
  | [] => [[(t, c)]]
  | g :: gs => if termCompatibleB t g then (g ++ [(t, c)]) :: gs else g :: placeTerm t c gs

/-- Modelled from the spec: `group_comeasureable_terms_greedy` is defined in
`zquantum/core/hamiltonian.py`, which is not among the provided source files.
Spec section 4.3: iterate the terms in a defined order (optionally sorting
first, by descending coefficient magnitude); maintain a list of groups; put
each term into the first existing group whose members never assign a
different basis to one of the term's qubits, otherwise open a new group. -/
def group_comeasureable_terms_greedy (qubit_operator : QubitOp)
    (sort_terms : Bool) : List QubitOp :=
  let terms := if sort_terms then sortTermsByMag qubit_operator else qubit_operator
  terms.foldl (fun groups tc => placeTerm tc.1 tc.2 groups) []

/-- Embedding of the `DECOMPOSITION_METHODS` dictionary
(estimator.py lines 19-24). -/
def DECOMPOSITION_METHODS (name : String) : Option (QubitOp → List QubitOp) :=
  if name = "greedy" then some (fun q => group_comeasureable_terms_greedy q false)
  else if name = "greedy-sorted" then
    some (fun q => group_comeasureable_terms_greedy q true)
  else none

/-- Embedding of `get_decomposition_function` (estimator.py lines 27-42). -/
def get_decomposition_function (decomposition_method : String) :
    Except PyErr (QubitOp → List QubitOp) :=
  match DECOMPOSITION_METHODS decomposition_method with
  | none => .error (.valueErrorUnrecognizedMethod decomposition_method)
  | some f => .ok f

/-- Mutable state of a `QuantumBackend` instance: its `n_samples`
configuration field plus whatever other state the concrete backend owns. -/
structure BackendState (σ : Type) where
  n_samples : Option Nat
  extra : σ

/-- Expectation values: fixed-order vector of (possibly complex) values. -/
structure ExpectationValues where
  values : List CC
deriving DecidableEq, Repr

/-- Modelled from the spec: `expectation_values_to_real` lives in
`zquantum/core/measurement.py`, not among the provided source files; per the
spec's data model, conversion discards the imaginary residues. -/
def expectation_values_to_real (ev : ExpectationValues) : ExpectationValues :=
  ⟨ev.values.map (fun c => (c.1, 0))⟩

/-- Modelled from the spec: `concatenate_expectation_values` lives in
`zquantum/core/measurement.py`, not among the provided source files; it
concatenates the per-group vectors in group order. -/
def concatenate_expectation_values (evs : List ExpectationValues) :
    ExpectationValues :=
  ⟨evs.foldr (fun ev acc => ev.values ++ acc) []⟩

/-- Frame-building loop of `BasicEstimator.get_estimated_expectation_values`
(estimator.py lines 140-148): per group, build the context-selection circuit
and frame operator, collecting `circuit + frame_circuit` and the operator. -/
def buildFrames (circuit : ECircuit) :
    List QubitOp → Except PyErr (List ECircuit × List IsingOp)
  | [] => .ok ([], [])
  | g :: rest =>
      match get_context_selection_circuit_for_group g with
      | .error e => .error e
      | .ok (frame_circuit, frame_operator) =>
          match buildFrames circuit rest with
          | .error e => .error e
          | .ok (cs, os) => .ok ((circuit ++ frame_circuit) :: cs, frame_operator :: os)

/-- Per-frame conversion and concatenation of estimator.py lines 162-172:
zip frame operators with measurement sets, convert each to real expectation
values, concatenate, and convert the concatenation to real. -/
def basicPostProcess {μ : Type} (get_expectation_values : μ → IsingOp → ExpectationValues)
    (frame_operators : List IsingOp) (measurements_set : List μ) : ExpectationValues :=
  expectation_values_to_real (concatenate_expectation_values
    ((frame_operators.zip measurements_set).map
      (fun p => expectation_values_to_real (get_expectation_values p.2 p.1))))

/-- Embedding of `BasicEstimator.get_estimated_expectation_values`
(estimator.py lines 114-172). The backend's batched run method is passed as
an explicit state-transforming function that may raise; when `n_samples` is
given, the backend's `n_samples` field is overridden before the batched run
and written back afterwards on the successful path — faithfully to the
source, which has no `try/finally`, no restoring write happens when the run
raises. -/
def basicEstimatorRun {σ μ : Type}
    (run_circuitset_and_measure :
      List ECircuit → BackendState σ → BackendState σ × Except PyErr (List μ))
    (get_expectation_values : μ → IsingOp → ExpectationValues)
    (backend : BackendState σ) (circuit : ECircuit) (target_operator : QubitOp)
    (n_samples : Option Nat) (epsilon delta : Option ℚ)
    (decomposition_method : String) :
    BackendState σ × Except PyErr ExpectationValues :=
  match get_decomposition_function decomposition_method with
  | .error e => (backend, .error e)
  | .ok decomposition_function =>
      match buildFrames circuit (decomposition_function target_operator) with
      | .error e => (backend, .error e)
      | .ok (frame_circuits, frame_operators) =>
          match n_samples with
          | some n =>
              let saved_n_samples := backend.n_samples
              let backend1 : BackendState σ := ⟨some n, backend.extra⟩
              match run_circuitset_and_measure frame_circuits backend1 with
              | (backend2, .error e) => (backend2, .error e)
              | (backend2, .ok measurements_set) =>
                  (⟨saved_n_samples, backend2.extra⟩,
                    .ok (basicPostProcess get_expectation_values
                          frame_operators measurements_set))
          | none =>
              match run_circuitset_and_measure frame_circuits backend with
              | (backend2, .error e) => (backend2, .error e)
              | (backend2, .ok measurements_set) =>
                  (backend2,
                    .ok (basicPostProcess get_expectation_values
                          frame_operators measurements_set))

/-- A backend as seen by `ExactEstimator`: either a `QuantumSimulator`, which
carries its `get_exact_expectation_values` capability, or a non-simulator
backend. -/
inductive ExactBackend (σ : Type) where
  | simulator (get_exact_expectation_values : ECircuit → QubitOp → ExpectationValues)
      (state : σ)
  | device (state : σ)

/-- Embedding of `ExactEstimator.get_estimated_expectation_values`
(estimator.py lines 179-211): delegate to the simulator capability, or raise
`AttributeError` for a non-simulator backend; `n_samples`, `epsilon` and
`delta` are accepted but unused, as in the source. -/
def exactEstimatorRun {σ : Type} (backend : ExactBackend σ) (circuit : ECircuit)
    (target_operator : QubitOp) (n_samples : Option Nat) (epsilon delta : Option ℚ) :
    Except PyErr ExpectationValues :=
  match backend with
  | .simulator get_exact _ => .ok (get_exact circuit target_operator)
  | .device _ => .error .attributeErrorNeedSimulator

/-- Modelled from the spec: `combine_ansatz_params` lives in the circuit
module, not among the provided source files; spec section 4.6 merges the
fixed and the free parameter vectors by concatenation. -/
def combine_ansatz_params (fixed free : List ℚ) : List ℚ := fixed ++ free

/-- Value-with-precision-metadata result returned by the cost function. -/
structure ValueEstimate where
  value : CC
deriving DecidableEq, Repr

/-- The bound state of an `AnsatzBasedCostFunction`
(cost_function.py lines 38-59): the target operator, the ansatz collaborator
as its `get_executable_circuit` capability, the backend, the estimator as its
`get_estimated_expectation_values` capability, and the optional tuning
fields. -/
structure AnsatzBasedCostFunction (β : Type) where
  target_operator : QubitOp
  get_executable_circuit : List ℚ → ECircuit
  backend : β
  estimator :
    β → ECircuit → QubitOp → Option Nat → Option ℚ → Option ℚ → ExpectationValues
  n_samples : Option Nat
  epsilon : Option ℚ
  delta : Option ℚ
  fixed_parameters : Option (List ℚ)

/-- Embedding of `AnsatzBasedCostFunction.__call__`
(cost_function.py lines 61-81). -/
def costFunctionCall {β : Type} (cf : AnsatzBasedCostFunction β)
    (parameters : List ℚ) : ValueEstimate :=
  let parameters1 :=
    match cf.fixed_parameters with
    | some fixed => combine_ansatz_params fixed parameters
    | none => parameters
  let circuit := cf.get_executable_circuit parameters1
  let expectation_values :=
    cf.estimator cf.backend circuit cf.target_operator cf.n_samples cf.epsilon cf.delta
  ⟨csum expectation_values.values⟩

/-! Gate serialization model.

The `Gate` class lives in `zquantum/core/circuit/gate/_gate.py`, which is not
among the provided source files; only its test module is. The definitions
below are modelled from the spec (sections 3, 4.1 and 6): a gate is a square
symbolic matrix of side `2 ^ len(qubits)` over an ordered tuple of distinct
qubit indices; construction validates these invariants; the serializable
representation keeps the schema tag, the qubit list, and the matrix as rows
of symbolic-expression strings; `load` accepts either a file (whose content
is that representation) or an already-parsed record, identically. -/

/-- Symbolic matrix entry: a complex constant, a named free symbol, or a sum
or product node (spec section 9's symbolic-expression abstraction). -/
inductive SymExpr where
  | const (re im : ℚ)
  | var (name : String)
  | add (a b : SymExpr)
  | mul (a b : SymExpr)
deriving DecidableEq, Repr

/-- Character of a decimal digit. -/
def digitChar (d : Nat) : Char := Char.ofNat (48 + d)

/-- Digit value of a character. -/
def decDigit (c : Char) : Nat := c.toNat - 48

/-- Decimal-digit test. -/
def isDigitChar (c : Char) : Bool := 48 ≤ c.toNat && c.toNat ≤ 57

/-- Little-endian decimal digits of a natural number, with explicit fuel. -/
def digitsLE : Nat → Nat → List Nat
  | 0, _ => []
  | fuel + 1, n => if n = 0 then [] else n % 10 :: digitsLE fuel (n / 10)

/-- Value of a little-endian decimal digit list. -/
def valLE : List Nat → Nat
  | [] => 0
  | d :: ds => d + 10 * valLE ds

/-- Render a natural number in decimal (most significant digit first; zero
renders as the empty digit string, which every use site delimits). -/
def encNat (n : Nat) : List Char := ((digitsLE n n).map digitChar).reverse

/-- Read a decimal number: consume the leading digits, return their value
and the unconsumed remainder. -/
def parseNat (cs : List Char) : Nat × List Char :=
  (valLE (((cs.takeWhile isDigitChar).map decDigit).reverse), cs.dropWhile isDigitChar)

/-- Render an integer: an explicit sign character, then the magnitude. -/
def encInt (i : Int) : List Char :=
  (if i < 0 then '-' else '+') :: encNat i.natAbs

/-- Read an integer. -/
def parseInt (cs : List Char) : Option (Int × List Char) :=
  match cs with
  | [] => none
  | c :: rest =>
      if c = '+' then some (((parseNat rest).1 : Int), (parseNat rest).2)
      else if c = '-' then some (-((parseNat rest).1 : Int), (parseNat rest).2)
      else none

/-- Render a rational as `numerator/denominator` followed by a space. -/
def encRat (q : ℚ) : List Char :=
  encInt q.num ++ '/' :: encNat q.den ++ [' ']

/-- Read a rational of the form `numerator/denominator` followed by a space. -/
def parseRat (cs : List Char) : Option (ℚ × List Char) :=
  match parseInt cs with
  | none => none
  | some (num, cs1) =>
      match cs1 with
      | [] => none
      | c :: cs2 =>
          if c = '/' then
            match (parseNat cs2).2 with
            | [] => none
            | c2 :: rest =>
                if c2 = ' ' then some (mkRat num (parseNat cs2).1, rest) else none
          else none

/-- Render a symbolic expression as text, in prefix form: `C` introduces a
complex constant (real then imaginary part), `V` a symbol with a
length-prefixed name, `A` a sum and `M` a product of the two following
subexpressions. -/
def encExpr : SymExpr → List Char
  | .const re im => 'C' :: (encRat re ++ encRat im)
  | .var name => 'V' :: (encNat name.length ++ ' ' :: name.data)
  | .add a b => 'A' :: (encExpr a ++ encExpr b)
  | .mul a b => 'M' :: (encExpr a ++ encExpr b)

/-- Read back a symbolic expression from text; the fuel bounds the recursion
depth. -/
def parseExpr : Nat → List Char → Option (SymExpr × List Char)
  | 0, _ => none
  | _ + 1, [] => none
  | fuel + 1, c :: cs =>
      if c = 'C' then
        match parseRat cs with
        | none => none
        | some (re, cs1) =>
            match parseRat cs1 with
            | none => none
            | some (im, cs2) => some (.const re im, cs2)
      else if c = 'V' then
        match (parseNat cs).2 with
        | [] => none
        | c1 :: cs1 =>
            if c1 = ' ' then
              some (.var ⟨cs1.take (parseNat cs).1⟩, cs1.drop (parseNat cs).1)
            else none
      else if c = 'A' then
        match parseExpr fuel cs with
        | none => none
        | some (a, cs1) =>
            match parseExpr fuel cs1 with
            | none => none
            | some (b, cs2) => some (.add a b, cs2)
      else if c = 'M' then
        match parseExpr fuel cs with
        | none => none
        | some (a, cs1) =>
            match parseExpr fuel cs1 with
            | none => none
            | some (b, cs2) => some (.mul a b, cs2)
      else none

/-- Number of nodes of an expression; a sufficient parse fuel. -/
def exprFuel : SymExpr → Nat
  | .const _ _ => 1
  | .var _ => 1
  | .add a b => exprFuel a + exprFuel b + 1
  | .mul a b => exprFuel a + exprFuel b + 1

/-- The symbolic-expression string of one serialized matrix entry. -/
def exprToString (e : SymExpr) : String := ⟨encExpr e⟩

/-- Parse one serialized matrix entry; the whole string must be consumed. -/
def loadExpr (s : String) : Option SymExpr :=
  match parseExpr s.data.length s.data with
  | some (e, []) => some e
  | _ => none

/-- Condition that a character list is empty or starts with a character
failing the predicate; delimits greedy number reads. -/
def headNot (p : Char → Bool) : List Char → Prop
  | [] => True
  | c :: _ => p c = false

/-- All-or-nothing elementwise parsing. -/
def mapOpt {α β : Type} (f : α → Option β) : List α → Option (List β)
  | [] => some []
  | x :: xs =>
      match f x, mapOpt f xs with
      | some y, some ys => some (y :: ys)
      | _, _ => none

/-- A gate: symbolic matrix over an ordered tuple of qubit indices. -/
structure Gate where
  matrix : List (List SymExpr)
  qubits : List Nat
deriving DecidableEq, Repr

/-- Construction-time invariants of a gate (spec section 3): square matrix of
side `2 ^ len(qubits)` and pairwise-distinct qubit indices. -/
def Gate.validB (g : Gate) : Bool :=
  decide (g.matrix.length = 2 ^ g.qubits.length) &&
  g.matrix.all (fun row => decide (row.length = 2 ^ g.qubits.length)) &&
  g.qubits.dedup.length == g.qubits.length

/-- Validity as a proposition. -/
def Gate.valid (g : Gate) : Prop :=
  g.matrix.length = 2 ^ g.qubits.length ∧
  (∀ row ∈ g.matrix, row.length = 2 ^ g.qubits.length) ∧
  g.qubits.Nodup

instance (g : Gate) : Decidable g.valid :=
  decidable_of_iff
    (g.matrix.length = 2 ^ g.qubits.length ∧
      (∀ row ∈ g.matrix, row.length = 2 ^ g.qubits.length) ∧ g.qubits.Nodup)
    Iff.rfl

/-- One serialized matrix row: the `elements` list of expression strings. -/
structure GateRow where
  elements : List String
deriving DecidableEq, Repr

/-- The serializable gate record `{schema, qubits, matrix}` of spec section 6. -/
structure GateRecord where
  schema : String
  qubits : List Nat
  matrix : List GateRow
deriving DecidableEq, Repr

/-- Schema version of the serialization layer (`SCHEMA_VERSION` of utils). -/
def SCHEMA_VERSION : String := "zapata-v1"

/-- Schema tag of a gate record (version string suffixed `-gate`). -/
def GATE_SCHEMA : String := SCHEMA_VERSION ++ "-gate"

/-- The serializable representation of `Gate.to_dict(serializable=True)`:
qubits as a plain list and each matrix row as an `elements` list of
symbolic-expression strings. -/
def Gate.to_dict_serializable (g : Gate) : GateRecord :=
  ⟨GATE_SCHEMA, g.qubits, g.matrix.map (fun row => ⟨row.map exprToString⟩)⟩

/-- Writing a gate to a file stores its serializable representation; the file
content is modelled as the parsed record. -/
def Gate.save (g : Gate) : GateRecord :=
  g.to_dict_serializable

/-- What `Gate.load` accepts: a file path (standing for the record read from
that file) or an already-parsed record. -/
inductive GateLoadInput where
  | file (content : GateRecord)
  | record (r : GateRecord)

/-- Rebuild a gate from a serialized record: parse every matrix entry and
re-run the construction-time validation. -/
def loadGateRecord (r : GateRecord) : Option Gate :=
  match mapOpt (fun row => mapOpt loadExpr row.elements) r.matrix with
  | none => none
  | some matrix =>
      let g : Gate := ⟨matrix, r.qubits⟩
      if g.validB then some g else none

/-- Gate loading; a file and an already-parsed record are handled
identically. -/
def Gate.load : GateLoadInput → Option Gate
  | .file content => loadGateRecord content
  | .record r => loadGateRecord r

/-! Specification-side definitions, written from the claims' wording, to be
compared with the embedded code above. -/

/-- The basis-rotation gate a factor calls for, per the claims' wording:
an X factor calls for `RY(-pi/2)` on its qubit, a Y factor for `RX(pi/2)`,
a Z factor for no gate. -/
def gateForFactor (f : Factor) : Option EGate :=
  match f.2 with
  | .X => some (EGate.RY negHalf f.1)
  | .Y => some (EGate.RX posHalf f.1)
  | .Z => none

/-- Well-formedness of an OpenFermion term: the factors are sorted by
strictly increasing qubit index (the canonical form every `QubitOperator`
maintains; in particular no qubit index repeats within a term). -/
def TermWF (t : PauliTerm) : Prop :=
  List.Pairwise (· < ·) (t.map Prod.fst)

/-- Well-formedness of a group: every member term is well-formed. -/
def GroupWF (g : QubitOp) : Prop :=
  ∀ tc ∈ g, TermWF tc.1

/-- The claims' conflict condition: the group contains two terms that assign
different basis letters to the same qubit index. -/
def HasConflict (g : QubitOp) : Prop :=
  ∃ tc1 ∈ g, ∃ tc2 ∈ g, ∃ f1 ∈ tc1.1, ∃ f2 ∈ tc2.1, f1.1 = f2.1 ∧ f1.2 ≠ f2.2

/-- The claims' frame operator for a group: the sum over the group's terms of
the term's coefficient times the product of Z over the term's qubit indices. -/
def specFrameOp (g : QubitOp) : IsingOp :=
  g.foldl
    (fun acc tc => isingAdd acc (isingScale [(tc.1.map Prod.fst, cone)] tc.2)) []

/-- The claims' effective parameters of a cost-function call: the input
vector when no fixed parameters are set, otherwise the combination of the
fixed parameters with the input vector. -/
def effectiveParameters (fixed : Option (List ℚ)) (parameters : List ℚ) : List ℚ :=
  match fixed with
  | some f => combine_ansatz_params f parameters
  | none => parameters

/-! Exception-free companions of the group-processing loops, used to analyse
`processTerm`/`processTerms`. -/

/-- The all-Z key after multiplying in one `Z` per factor of a term. -/
def keyAfterTerm (key : List Nat) (t : PauliTerm) : List Nat :=
  t.foldl (fun k f => zmulKey k f.1) key

/-- The context after appending one term's unseen factors. -/
def ctxAfterTerm (context : List Factor) (t : PauliTerm) : List Factor :=
  t.foldl ctxAdd context

/-- Whether one term's factor loop completes without a conflict. -/
def termOkB (context : List Factor) : PauliTerm → Bool
  | [] => true
  | f :: rest => !conflictsB context f && termOkB (ctxAdd context f) rest

/-- The context after the whole group. -/
def ctxAfterGroup (context : List Factor) (g : QubitOp) : List Factor :=
  g.foldl (fun c tc => ctxAfterTerm c tc.1) context

/-- Whether the whole group's loop completes without a conflict. -/
def groupOkB (context : List Factor) : QubitOp → Bool
  | [] => true
  | (t, _) :: rest => termOkB context t && groupOkB (ctxAfterTerm context t) rest

/-- The accumulated frame operator over the whole group. -/
def opAfterGroup (op : IsingOp) (g : QubitOp) : IsingOp :=
  g.foldl
    (fun acc tc => isingAdd acc (isingScale [(keyAfterTerm [] tc.1, cone)] tc.2)) op

instance (t : PauliTerm) : Decidable (TermWF t) :=
  decidable_of_iff (List.Pairwise (· < ·) (t.map Prod.fst)) Iff.rfl

instance (g : QubitOp) : Decidable (GroupWF g) :=
  decidable_of_iff (∀ tc ∈ g, TermWF tc.1) Iff.rfl

instance (g : QubitOp) : Decidable (HasConflict g) :=
  decidable_of_iff
    (∃ tc1 ∈ g, ∃ tc2 ∈ g, ∃ f1 ∈ tc1.1, ∃ f2 ∈ tc2.1, f1.1 = f2.1 ∧ f1.2 ≠ f2.2)
    Iff.rfl

/-- C5: `ExactEstimator.get_estimated_expectation_values` raises an
AttributeError-class error whenever the backend is not a `QuantumSimulator`,
and for every simulator backend it returns exactly the backend's
`get_exact_expectation_values(circuit, target_operator)` — a single delegated
call on the full operator. -/
theorem exactEstimator_capability_and_delegation {σ : Type}
    (backend : ExactBackend σ) (circuit : ECircuit) (target : QubitOp)
    (n_samples : Option Nat) (epsilon delta : Option ℚ) :
    (∀ f st, backend = .simulator f st →
      exactEstimatorRun backend circuit target n_samples epsilon delta =
        .ok (f circuit target)) ∧
    ((∀ f st, backend ≠ .simulator f st) →
      exactEstimatorRun backend circuit target n_samples epsilon delta =
        .error .attributeErrorNeedSimulator) := by
  constructor
  · rintro f st rfl
    rfl
  · intro h
    cases backend with
    | simulator f st => exact absurd rfl (h f st)
    | device st => rfl

/-- Witness for C5: a concrete non-simulator backend raises the capability
error, and a concrete simulator backend gets the delegated result. -/
theorem exactEstimator_capability_witness :
    exactEstimatorRun (ExactBackend.device () : ExactBackend Unit) [] [] none none none =
      .error .attributeErrorNeedSimulator ∧
    exactEstimatorRun
      (ExactBackend.simulator (fun _ _ => ⟨[(5, 0)]⟩) () : ExactBackend Unit)
      [] [] none none none = .ok ⟨[(5, 0)]⟩ :=
  ⟨(exactEstimator_capability_and_delegation (ExactBackend.device ()) [] [] none none none).2
      (fun f st h => ExactBackend.noConfusion h),
    (exactEstimator_capability_and_delegation
      (ExactBackend.simulator (fun _ _ => ⟨[(5, 0)]⟩) ()) [] [] none none none).1
      _ _ rfl⟩

/-- C10: the result of `ExactEstimator.get_estimated_expectation_values` does
not depend on the `n_samples`, `epsilon` or `delta` arguments: two calls
differing only in them return identical results. -/
theorem exactEstimator_ignores_sampling_arguments {σ : Type}
    (backend : ExactBackend σ) (circuit : ECircuit) (target : QubitOp)
    (n1 n2 : Option Nat) (e1 d1 e2 d2 : Option ℚ) :
    exactEstimatorRun backend circuit target n1 e1 d1 =
      exactEstimatorRun backend circuit target n2 e2 d2 := by
  cases backend <;> rfl

/-- C7: `AnsatzBasedCostFunction.__call__` returns the value-estimate whose
value is the scalar sum of the expectation values the estimator produces for
the circuit built by the ansatz on the effective parameters (the input vector
when `fixed_parameters` is unset, its combination with the fixed parameters
otherwise). -/
theorem costFunction_value {β : Type} (cf : AnsatzBasedCostFunction β)
    (parameters : List ℚ) :
    costFunctionCall cf parameters =
      ⟨csum (cf.estimator cf.backend
        (cf.get_executable_circuit (effectiveParameters cf.fixed_parameters parameters))
        cf.target_operator cf.n_samples cf.epsilon cf.delta).values⟩ := by
  cases h : cf.fixed_parameters <;>
    simp [costFunctionCall, effectiveParameters, h]

/-- C6: `get_decomposition_function` raises the unsupported-option error
exactly when the name is neither "greedy" nor "greedy-sorted", and for those
two names returns the corresponding grouping function without error. -/
theorem decomposition_function_selection (name : String) :
    ((∃ e, get_decomposition_function name = .error e) ↔
      (name ≠ "greedy" ∧ name ≠ "greedy-sorted")) ∧
    get_decomposition_function "greedy" =
      .ok (fun q => group_comeasureable_terms_greedy q false) ∧
    get_decomposition_function "greedy-sorted" =
      .ok (fun q => group_comeasureable_terms_greedy q true) := by
  refine ⟨⟨?_, ?_⟩, rfl, rfl⟩
  · rintro ⟨e, he⟩
    constructor
    · rintro rfl
      simp [get_decomposition_function, DECOMPOSITION_METHODS] at he
    · rintro rfl
      simp [get_decomposition_function, DECOMPOSITION_METHODS] at he
  · rintro ⟨h1, h2⟩
    exact ⟨.valueErrorUnrecognizedMethod name,
      by simp [get_decomposition_function, DECOMPOSITION_METHODS, h1, h2]⟩

/-- Witness for C6: the unknown name "magic" raises, the known name "greedy"
resolves to the unsorted greedy grouping function. -/
theorem decomposition_function_selection_witness :
    (∃ e, get_decomposition_function "magic" = .error e) ∧
    get_decomposition_function "greedy" =
      .ok (fun q => group_comeasureable_terms_greedy q false) :=
  ⟨((decomposition_function_selection "magic").1).mpr ⟨by decide, by decide⟩,
    (decomposition_function_selection "greedy").2.1⟩

/-- C9: with an unknown decomposition-method name,
`BasicEstimator.get_estimated_expectation_values` raises before any
interaction with the backend: for every batched-run behavior the result is
the unrecognized-method error and the backend state is returned unchanged,
so `run_circuitset_and_measure` is never invoked and `n_samples` is never
written. -/
theorem basicEstimator_unknown_method_before_backend {σ μ : Type}
    (run : List ECircuit → BackendState σ → BackendState σ × Except PyErr (List μ))
    (getEV : μ → IsingOp → ExpectationValues)
    (backend : BackendState σ) (circuit : ECircuit) (target : QubitOp)
    (n_samples : Option Nat) (epsilon delta : Option ℚ) (method : String)
    (h1 : method ≠ "greedy") (h2 : method ≠ "greedy-sorted") :
    basicEstimatorRun run getEV backend circuit target n_samples epsilon delta method =
      (backend, .error (.valueErrorUnrecognizedMethod method)) := by
  simp [basicEstimatorRun, get_decomposition_function, DECOMPOSITION_METHODS, h1, h2]

/-- Witness for C9: a concrete call with method name "magic" leaves a
concrete backend untouched and raises the unrecognized-method error, for a
run function that would have changed the state had it been invoked. -/
theorem basicEstimator_unknown_method_witness :
    basicEstimatorRun
      (fun _ (_ : BackendState Unit) => (⟨some 999, ()⟩, .ok ([] : List Unit)))
      (fun _ _ => ⟨[]⟩) ⟨some 5, ()⟩ [] [([(0, Basis.Z)], cone)]
      (some 3) none none "magic" =
      (⟨some 5, ()⟩, .error (.valueErrorUnrecognizedMethod "magic")) :=
  basicEstimator_unknown_method_before_backend _ _ _ _ _ _ _ _ _
    (by decide) (by decide)

/-- One factor's appended gate list is its optional claim-side gate. -/
theorem factorGates_eq_toList (f : Factor) :
    factorGates f = (gateForFactor f).toList := by
  rcases f with ⟨q, b⟩
  cases b <;> rfl

/-- Closed form of the single-term context-selection loop. -/
theorem csGo_eq (t : PauliTerm) : ∀ circ key,
    csGo circ key t =
      (circ ++ t.filterMap gateForFactor, [(keyAfterTerm key t, cone)]) := by
  induction t with
  | nil => intro circ key; simp [csGo, keyAfterTerm]
  | cons f rest ih =>
      intro circ key
      rw [csGo, ih]
      rcases f with ⟨q, b⟩
      cases b <;> simp [factorGates, gateForFactor, keyAfterTerm]

/-- Inserting an index greater than everything in a sorted key appends it. -/
theorem insertSorted_eq_append {q : Nat} : ∀ key : List Nat,
    (∀ x ∈ key, x < q) → insertSorted q key = key ++ [q] := by
  intro key
  induction key with
  | nil => intro _; rfl
  | cons x xs ih =>
      intro h
      have hx : x < q := h x (List.mem_cons_self _ _)
      rw [insertSorted, if_neg (by omega)]
      rw [ih (fun y hy => h y (List.mem_cons_of_mem _ hy))]
      rfl

/-- Multiplying a sorted key by `Z` on a strictly larger index appends it. -/
theorem zmulKey_append {q : Nat} {key : List Nat} (h : ∀ x ∈ key, x < q) :
    zmulKey key q = key ++ [q] := by
  have hq : q ∉ key := fun hmem => absurd (h q hmem) (lt_irrefl q)
  rw [zmulKey, if_neg hq]
  exact insertSorted_eq_append key h

/-- On factors with strictly ascending qubit indices, the all-Z key fold
just lists the indices. -/
theorem keyAfterTerm_sorted (t : PauliTerm) : ∀ key : List Nat,
    (key ++ t.map Prod.fst).Pairwise (· < ·) →
    keyAfterTerm key t = key ++ t.map Prod.fst := by
  induction t with
  | nil => intro key _; simp [keyAfterTerm]
  | cons f rest ih =>
      intro key h
      have h1 : ∀ x ∈ key, x < f.1 := by
        rw [List.pairwise_append] at h
        exact fun x hx => h.2.2 x hx f.1 (by simp)
      have h2 : ((key ++ [f.1]) ++ rest.map Prod.fst).Pairwise (· < ·) := by
        simpa [List.append_assoc] using h
      calc keyAfterTerm key (f :: rest)
          = keyAfterTerm (zmulKey key f.1) rest := by simp [keyAfterTerm]
        _ = keyAfterTerm (key ++ [f.1]) rest := by rw [zmulKey_append h1]
        _ = (key ++ [f.1]) ++ rest.map Prod.fst := ih _ h2
        _ = key ++ (f :: rest).map Prod.fst := by simp

/-- C3: for every Pauli term, the context-selection circuit holds, in factor
order, exactly one `RY(-pi/2)` per X factor and one `RX(pi/2)` per Y factor
and nothing for Z factors, and the frame operator is the product of Z over
the term's qubit indices; in particular the single-factor term X on qubit 0
gives exactly one `RY(-pi/2)` on qubit 0 and frame operator Z on qubit 0. -/
theorem context_selection_single_term (term : PauliTerm) (h : TermWF term) :
    (get_context_selection_circuit term).1 = term.filterMap gateForFactor ∧
    (get_context_selection_circuit term).2 = [(term.map Prod.fst, cone)] ∧
    get_context_selection_circuit [(0, Basis.X)] =
      ([EGate.RY negHalf 0], [([0], cone)]) := by
  refine ⟨?_, ?_, rfl⟩
  · rw [get_context_selection_circuit, csGo_eq]
    simp
  · rw [get_context_selection_circuit, csGo_eq]
    have : keyAfterTerm [] term = term.map Prod.fst := by
      simpa using keyAfterTerm_sorted term [] (by simpa [TermWF] using h)
    simp [this]

/-- Witness for C3 at the single-factor term X on qubit 0. -/
theorem context_selection_single_term_witness :
    (get_context_selection_circuit [(0, Basis.X)]).1 =
      List.filterMap gateForFactor [(0, Basis.X)] ∧
    (get_context_selection_circuit [(0, Basis.X)]).2 =
      [(List.map Prod.fst [((0 : Nat), Basis.X)], cone)] ∧
    get_context_selection_circuit [(0, Basis.X)] =
      ([EGate.RY negHalf 0], [([0], cone)]) :=
  context_selection_single_term [(0, Basis.X)] (by decide)

/-- Bool-level meaning of the conflict test. -/
theorem conflictsB_iff {context : List Factor} {f : Factor} :
    conflictsB context f = true ↔ ∃ e ∈ context, e.1 = f.1 ∧ e.2 ≠ f.2 := by
  simp [conflictsB, List.any_eq_true, Bool.and_eq_true, beq_iff_eq, bne_iff_ne]

/-- The conflict test is monotone in the context. -/
theorem conflictsB_mono {c1 c2 : List Factor} {f : Factor}
    (hsub : ∀ e ∈ c1, e ∈ c2) (h : conflictsB c1 f = true) :
    conflictsB c2 f = true := by
  rw [conflictsB_iff] at h ⊢
  obtain ⟨e, he, hc⟩ := h
  exact ⟨e, hsub e he, hc⟩

/-- Membership after one conditional append. -/
theorem mem_ctxAdd {context : List Factor} {f e : Factor} :
    e ∈ ctxAdd context f ↔ e ∈ context ∨ e = f := by
  by_cases hf : f ∈ context
  · rw [ctxAdd, if_pos hf]
    constructor
    · exact Or.inl
    · rintro (h | rfl)
      · exact h
      · exact hf
  · rw [ctxAdd, if_neg hf]
    simp

/-- Membership after a term's factor loop. -/
theorem mem_ctxAfterTerm (t : PauliTerm) : ∀ context e,
    e ∈ ctxAfterTerm context t ↔ e ∈ context ∨ e ∈ t := by
  induction t with
  | nil => intro c e; simp [ctxAfterTerm]
  | cons f rest ih =>
      intro c e
      have hstep : ctxAfterTerm c (f :: rest) = ctxAfterTerm (ctxAdd c f) rest := rfl
      rw [hstep, ih, mem_ctxAdd, List.mem_cons]
      tauto

/-- Membership after the whole group's loop. -/
theorem mem_ctxAfterGroup (g : QubitOp) : ∀ context e,
    e ∈ ctxAfterGroup context g ↔ e ∈ context ∨ ∃ tc ∈ g, e ∈ tc.1 := by
  induction g with
  | nil => intro c e; simp [ctxAfterGroup]
  | cons tc rest ih =>
      intro c e
      have hstep : ctxAfterGroup c (tc :: rest) = ctxAfterGroup (ctxAfterTerm c tc.1) rest := rfl
      rw [hstep, ih, mem_ctxAfterTerm]
      constructor
      · rintro ((h | h) | ⟨tc', h1, h2⟩)
        · exact Or.inl h
        · exact Or.inr ⟨tc, List.mem_cons_self _ _, h⟩
        · exact Or.inr ⟨tc', List.mem_cons_of_mem _ h1, h2⟩
      · rintro (h | ⟨tc', h1, h2⟩)
        · exact Or.inl (Or.inl h)
        · rcases List.mem_cons.mp h1 with rfl | h1'
          · exact Or.inl (Or.inr h2)
          · exact Or.inr ⟨tc', h1', h2⟩

/-- A conflict-free factor loop computes the pure context and key. -/
theorem processTerm_ok (t : PauliTerm) : ∀ context key,
    termOkB context t = true →
    processTerm context key t = .ok (ctxAfterTerm context t, keyAfterTerm key t) := by
  induction t with
  | nil => intro c k _; rfl
  | cons f rest ih =>
      intro c k h
      rw [termOkB, Bool.and_eq_true, Bool.not_eq_true'] at h
      rw [processTerm, if_neg (by simp [h.1])]
      exact ih _ _ h.2

/-- A conflicting factor loop raises the not-co-measurable error. -/
theorem processTerm_err (t : PauliTerm) : ∀ context key,
    termOkB context t = false →
    processTerm context key t = .error .valueErrorNotCoMeasurable := by
  induction t with
  | nil => intro c k h; simp [termOkB] at h
  | cons f rest ih =>
      intro c k h
      rw [termOkB] at h
      rw [processTerm]
      cases hcb : conflictsB c f
      · rw [if_neg (by simp [hcb])]
        exact ih _ _ (by simpa [hcb] using h)
      · simp

/-- A conflict-free group loop computes the pure context and operator. -/
theorem processTerms_ok (g : QubitOp) : ∀ context op,
    groupOkB context g = true →
    processTerms context op g = .ok (ctxAfterGroup context g, opAfterGroup op g) := by
  induction g with
  | nil => intro c op _; rfl
  | cons tc rest ih =>
      intro c op h
      rcases tc with ⟨t, coeff⟩
      rw [groupOkB, Bool.and_eq_true] at h
      rw [processTerms, processTerm_ok t c [] h.1]
      exact ih _ _ h.2

/-- A conflicting group loop raises the not-co-measurable error. -/
theorem processTerms_err (g : QubitOp) : ∀ context op,
    groupOkB context g = false →
    processTerms context op g = .error .valueErrorNotCoMeasurable := by
  induction g with
  | nil => intro c op h; simp [groupOkB] at h
  | cons tc rest ih =>
      intro c op h
      rcases tc with ⟨t, coeff⟩
      rw [groupOkB] at h
      rw [processTerms]
      cases htk : termOkB c t
      · rw [processTerm_err t c [] htk]
      · rw [processTerm_ok t c [] htk]
        exact ih _ _ (by simpa [htk] using h)

/-- A factor conflicting with the context makes its term's loop fail. -/
theorem termOkB_false_of_conflict (t : PauliTerm) : ∀ context f, f ∈ t →
    conflictsB context f = true → termOkB context t = false := by
  induction t with
  | nil => intro c f hf _; simp at hf
  | cons g rest ih =>
      intro c f hf hc
      rw [termOkB]
      rcases List.mem_cons.mp hf with rfl | hf'
      · simp [hc]
      · cases hcg : conflictsB c g
        · simp only [hcg, Bool.not_false, Bool.true_and]
          exact ih (ctxAdd c g) f hf'
            (conflictsB_mono (fun e he => mem_ctxAdd.mpr (Or.inl he)) hc)
        · simp

/-- A failing term loop exhibits a conflicting factor pair. -/
theorem termOkB_false_exists (t : PauliTerm) : ∀ context,
    termOkB context t = false →
    ∃ f ∈ t, ∃ e, (e ∈ context ∨ e ∈ t) ∧ e.1 = f.1 ∧ e.2 ≠ f.2 := by
  induction t with
  | nil => intro c h; simp [termOkB] at h
  | cons g rest ih =>
      intro c h
      rw [termOkB] at h
      cases hcg : conflictsB c g
      · rw [hcg] at h
        simp only [Bool.not_false, Bool.true_and] at h
        obtain ⟨f, hf, e, he, hq, hb⟩ := ih (ctxAdd c g) h
        refine ⟨f, List.mem_cons_of_mem _ hf, e, ?_, hq, hb⟩
        rcases he with he | he
        · rcases mem_ctxAdd.mp he with h1 | rfl
          · exact Or.inl h1
          · exact Or.inr (List.mem_cons_self _ _)
        · exact Or.inr (List.mem_cons_of_mem _ he)
      · obtain ⟨e, he, hq, hb⟩ := conflictsB_iff.mp hcg
        exact ⟨g, List.mem_cons_self _ _, e, Or.inl he, hq, hb⟩

/-- In a term whose qubit indices strictly ascend, factors on the same qubit
coincide. -/
theorem wf_factor_eq : ∀ (t : PauliTerm),
    List.Pairwise (fun a b : Factor => a.1 < b.1) t →
    ∀ f1 ∈ t, ∀ f2 ∈ t, f1.1 = f2.1 → f1 = f2 := by
  intro t
  induction t with
  | nil => intro _ f1 h1; simp at h1
  | cons x xs ih =>
      intro hp f1 h1 f2 h2 hq
      rcases List.pairwise_cons.mp hp with ⟨hx, hxs⟩
      rcases List.mem_cons.mp h1 with rfl | h1'
      · rcases List.mem_cons.mp h2 with rfl | h2'
        · rfl
        · exact absurd hq (by have := hx f2 h2'; omega)
      · rcases List.mem_cons.mp h2 with rfl | h2'
        · exact absurd hq (by have := hx f1 h1'; omega)
        · exact ih hxs f1 h1' f2 h2' hq

/-- A conflict between the context and a group member fails the group loop. -/
theorem groupOkB_false_of_ctx_conflict (g : QubitOp) : ∀ context e tc f,
    e ∈ context → tc ∈ g → f ∈ tc.1 → e.1 = f.1 → e.2 ≠ f.2 →
    groupOkB context g = false := by
  induction g with
  | nil => intro c e tc f _ htc; simp at htc
  | cons tc0 rest ih =>
      intro c e tc f he htc hf hq hb
      rcases tc0 with ⟨t0, c0⟩
      rw [groupOkB]
      rcases List.mem_cons.mp htc with rfl | htc'
      · have hc : conflictsB c f = true := conflictsB_iff.mpr ⟨e, he, hq, hb⟩
        rw [termOkB_false_of_conflict t0 c f hf hc]
        rfl
      · cases htk : termOkB c t0
        · rfl
        · simp only [Bool.true_and]
          exact ih (ctxAfterTerm c t0) e tc f
            ((mem_ctxAfterTerm t0 c e).mpr (Or.inl he)) htc' hf hq hb

/-- A conflicting pair of well-formed terms fails the group loop, from any
starting context. -/
theorem groupOkB_false_of_conflict (g : QubitOp) : ∀ context, GroupWF g →
    HasConflict g → groupOkB context g = false := by
  induction g with
  | nil =>
      intro c _ h
      obtain ⟨tc1, htc1, _⟩ := h
      simp at htc1
  | cons tc0 rest ih =>
      intro c hwf h
      obtain ⟨tc1, htc1, tc2, htc2, f1, hf1, f2, hf2, hq, hb⟩ := h
      rcases tc0 with ⟨t0, c0⟩
      rw [groupOkB]
      rcases List.mem_cons.mp htc1 with rfl | h1
      · rcases List.mem_cons.mp htc2 with rfl | h2
        · have hwf0 : TermWF t0 := hwf (t0, c0) (List.mem_cons_self _ _)
          rw [TermWF, List.pairwise_map] at hwf0
          have := wf_factor_eq t0 hwf0 f1 hf1 f2 hf2 hq
          exact absurd (by rw [this]) hb
        · cases htk : termOkB c t0
          · rfl
          · simp only [Bool.true_and]
            exact groupOkB_false_of_ctx_conflict rest (ctxAfterTerm c t0) f1 tc2 f2
              ((mem_ctxAfterTerm t0 c f1).mpr (Or.inr hf1)) h2 hf2 hq hb
      · rcases List.mem_cons.mp htc2 with rfl | h2
        · cases htk : termOkB c t0
          · rfl
          · simp only [Bool.true_and]
            exact groupOkB_false_of_ctx_conflict rest (ctxAfterTerm c t0) f2 tc1 f1
              ((mem_ctxAfterTerm t0 c f2).mpr (Or.inr hf2)) h1 hf1 hq.symm (Ne.symm hb)
        · cases htk : termOkB c t0
          · rfl
          · simp only [Bool.true_and]
            exact ih (ctxAfterTerm c t0)
              (fun tc htc => hwf tc (List.mem_cons_of_mem _ htc))
              ⟨tc1, h1, tc2, h2, f1, hf1, f2, hf2, hq, hb⟩

/-- A failing group loop exhibits a conflict with the starting context or
between two of the group's terms. -/
theorem groupOkB_false_conflict (g : QubitOp) : ∀ context,
    groupOkB context g = false →
    (∃ e ∈ context, ∃ tc ∈ g, ∃ f ∈ tc.1, e.1 = f.1 ∧ e.2 ≠ f.2) ∨ HasConflict g := by
  induction g with
  | nil => intro c h; simp [groupOkB] at h
  | cons tc0 rest ih =>
      intro c h
      rcases tc0 with ⟨t0, c0⟩
      rw [groupOkB] at h
      cases htk : termOkB c t0
      · obtain ⟨f, hf, e, he, hq, hb⟩ := termOkB_false_exists t0 c htk
        rcases he with he | he
        · exact Or.inl ⟨e, he, (t0, c0), List.mem_cons_self _ _, f, hf, hq, hb⟩
        · exact Or.inr ⟨(t0, c0), List.mem_cons_self _ _, (t0, c0),
            List.mem_cons_self _ _, e, he, f, hf, hq, hb⟩
      · rw [htk] at h
        simp only [Bool.true_and] at h
        rcases ih (ctxAfterTerm c t0) h with ⟨e, he, tc, htc, f, hf, hq, hb⟩ | hconf
        · rcases (mem_ctxAfterTerm t0 c e).mp he with he' | he'
          · exact Or.inl ⟨e, he', tc, List.mem_cons_of_mem _ htc, f, hf, hq, hb⟩
          · exact Or.inr ⟨(t0, c0), List.mem_cons_self _ _, tc,
              List.mem_cons_of_mem _ htc, e, he', f, hf, hq, hb⟩
        · obtain ⟨tc1, h1, tc2, h2, rest'⟩ := hconf
          exact Or.inr ⟨tc1, List.mem_cons_of_mem _ h1, tc2,
            List.mem_cons_of_mem _ h2, rest'⟩

/-- C2: `get_context_selection_circuit_for_group` raises the
not-co-measurable error if and only if the group contains two terms that
assign different basis letters to the same qubit index; on every
conflict-free group it returns a (circuit, operator) pair. -/
theorem group_context_error_iff (g : QubitOp) (hwf : GroupWF g) :
    (get_context_selection_circuit_for_group g =
        .error .valueErrorNotCoMeasurable ↔ HasConflict g) ∧
    (¬ HasConflict g →
      ∃ circuit op, get_context_selection_circuit_for_group g = .ok (circuit, op)) := by
  cases hok : groupOkB [] g
  · have hres : get_context_selection_circuit_for_group g =
        .error .valueErrorNotCoMeasurable := by
      rw [get_context_selection_circuit_for_group, processTerms_err g [] [] hok]
    have hconf : HasConflict g := by
      rcases groupOkB_false_conflict g [] hok with ⟨e, he, _⟩ | h
      · simp at he
      · exact h
    exact ⟨by rw [hres]; exact iff_of_true rfl hconf, fun hn => absurd hconf hn⟩
  · have hres : get_context_selection_circuit_for_group g =
        .ok (contextCircuit (ctxAfterGroup [] g), opAfterGroup [] g) := by
      rw [get_context_selection_circuit_for_group, processTerms_ok g [] [] hok]
    constructor
    · rw [hres]
      constructor
      · intro h
        exact absurd h (by simp)
      · intro hconf
        exact absurd (groupOkB_false_of_conflict g [] hwf hconf) (by simp [hok])
    · intro _
      exact ⟨_, _, hres⟩

/-- Witness for C2: a concrete group assigning X and Y to qubit 0 raises the
not-co-measurable error. -/
theorem group_context_error_witness :
    get_context_selection_circuit_for_group
      [([(0, Basis.X)], cone), ([(0, Basis.Y)], cone)] =
      .error .valueErrorNotCoMeasurable :=
  (group_context_error_iff [([(0, Basis.X)], cone), ([(0, Basis.Y)], cone)]
      (by decide)).1.mpr (by decide)

/-- The conditional append keeps the context duplicate-free. -/
theorem ctxAdd_nodup {context : List Factor} (h : context.Nodup) (f : Factor) :
    (ctxAdd context f).Nodup := by
  by_cases hf : f ∈ context
  · rw [ctxAdd, if_pos hf]
    exact h
  · rw [ctxAdd, if_neg hf]
    simp [List.nodup_append, h, hf]

/-- A term's factor loop keeps the context duplicate-free. -/
theorem ctxAfterTerm_nodup (t : PauliTerm) : ∀ context : List Factor,
    context.Nodup → (ctxAfterTerm context t).Nodup := by
  induction t with
  | nil => intro c h; exact h
  | cons f rest ih => intro c h; exact ih (ctxAdd c f) (ctxAdd_nodup h f)

/-- The group loop keeps the context duplicate-free. -/
theorem ctxAfterGroup_nodup (g : QubitOp) : ∀ context : List Factor,
    context.Nodup → (ctxAfterGroup context g).Nodup := by
  induction g with
  | nil => intro c h; exact h
  | cons tc rest ih => intro c h; exact ih _ (ctxAfterTerm_nodup tc.1 c h)

/-- Distinct factors call for distinct gates (where they call for one). -/
theorem gateForFactor_inj : ∀ (a b : Factor) (c : EGate),
    c ∈ gateForFactor a → c ∈ gateForFactor b → a = b := by
  rintro ⟨q1, b1⟩ ⟨q2, b2⟩ c h1 h2
  cases b1 <;> cases b2 <;>
    simp [gateForFactor, Option.mem_def] at h1 h2 <;> subst h1 <;> simp_all

/-- The gate-emission loop is the filterMap of the claim-side gate map. -/
theorem foldl_append_factorGates (t : List Factor) : ∀ acc : ECircuit,
    t.foldl (fun c f => c ++ factorGates f) acc = acc ++ t.filterMap gateForFactor := by
  induction t with
  | nil => intro acc; simp
  | cons f rest ih =>
      intro acc
      rw [List.foldl_cons, ih]
      rcases f with ⟨q, b⟩
      cases b <;> simp [factorGates, gateForFactor]

/-- Closed form of `contextCircuit`. -/
theorem contextCircuit_eq_filterMap (context : List Factor) :
    contextCircuit context = context.filterMap gateForFactor := by
  simpa [contextCircuit] using foldl_append_factorGates context []

/-- On well-formed groups the accumulated frame operator is the claim-side
coefficient-weighted sum of all-Z terms. -/
theorem opAfterGroup_spec (g : QubitOp) : ∀ acc : IsingOp, GroupWF g →
    opAfterGroup acc g =
      g.foldl
        (fun a tc => isingAdd a (isingScale [(tc.1.map Prod.fst, cone)] tc.2)) acc := by
  induction g with
  | nil => intro acc _; rfl
  | cons tc rest ih =>
      intro acc hwf
      have hkey : keyAfterTerm [] tc.1 = tc.1.map Prod.fst := by
        have hw := hwf tc (List.mem_cons_self _ _)
        simpa using keyAfterTerm_sorted tc.1 [] (by simpa [TermWF] using hw)
      calc opAfterGroup acc (tc :: rest)
          = opAfterGroup
              (isingAdd acc (isingScale [(keyAfterTerm [] tc.1, cone)] tc.2)) rest := rfl
        _ = opAfterGroup
              (isingAdd acc (isingScale [(tc.1.map Prod.fst, cone)] tc.2)) rest := by
              rw [hkey]
        _ = rest.foldl
              (fun a tc' => isingAdd a (isingScale [(tc'.1.map Prod.fst, cone)] tc'.2))
              (isingAdd acc (isingScale [(tc.1.map Prod.fst, cone)] tc.2)) :=
            ih _ (fun tc' h => hwf tc' (List.mem_cons_of_mem _ h))
        _ = (tc :: rest).foldl
              (fun a tc' => isingAdd a (isingScale [(tc'.1.map Prod.fst, cone)] tc'.2))
              acc := rfl

/-- C4: on every well-formed co-measurable group,
`get_context_selection_circuit_for_group` returns a circuit with at most one
basis-rotation gate per distinct (qubit, basis) assignment (each gate occurs
at most once) and a frame operator equal to the sum over the group's terms of
the coefficient times the product of Z over the term's qubit indices. -/
theorem group_context_structure (g : QubitOp) (hwf : GroupWF g)
    (hco : ¬ HasConflict g) :
    ∃ circuit op, get_context_selection_circuit_for_group g = .ok (circuit, op) ∧
      (∀ gate : EGate, circuit.count gate ≤ 1) ∧ op = specFrameOp g := by
  have hok : groupOkB [] g = true := by
    cases hok : groupOkB [] g
    · rcases groupOkB_false_conflict g [] hok with ⟨e, he, _⟩ | h
      · simp at he
      · exact absurd h hco
    · rfl
  have hres : get_context_selection_circuit_for_group g =
      .ok (contextCircuit (ctxAfterGroup [] g), opAfterGroup [] g) := by
    rw [get_context_selection_circuit_for_group, processTerms_ok g [] [] hok]
  refine ⟨_, _, hres, ?_, ?_⟩
  · have hnodup : (ctxAfterGroup [] g).Nodup := ctxAfterGroup_nodup g [] List.nodup_nil
    have hcirc : (contextCircuit (ctxAfterGroup [] g)).Nodup := by
      rw [contextCircuit_eq_filterMap]
      exact List.Nodup.filterMap gateForFactor_inj hnodup
    exact fun gate => List.nodup_iff_count_le_one.mp hcirc gate
  · exact opAfterGroup_spec g [] hwf

/-- Witness for C4 at a concrete two-term co-measurable group. -/
theorem group_context_structure_witness :
    ∃ circuit op, get_context_selection_circuit_for_group
        [([(0, Basis.X), (1, Basis.Z)], cone), ([(1, Basis.Z)], ((2 : ℚ), (0 : ℚ)))] =
        .ok (circuit, op) ∧
      (∀ gate : EGate, circuit.count gate ≤ 1) ∧
      op = specFrameOp
        [([(0, Basis.X), (1, Basis.Z)], cone), ([(1, Basis.Z)], ((2 : ℚ), (0 : ℚ)))] :=
  group_context_structure
    [([(0, Basis.X), (1, Basis.Z)], cone), ([(1, Basis.Z)], ((2 : ℚ), (0 : ℚ)))]
    (by decide) (by decide)

/-- C1 (amended): when `n_samples` is explicitly given and the batched run
returns successfully, the backend's `n_samples` field is restored to its
value from before the call. (The unamended failure-path half of the claim is
refuted by `basicEstimator_no_restore_on_error`.) -/
theorem basicEstimator_restores_on_success {σ μ : Type}
    (run : List ECircuit → BackendState σ → BackendState σ × Except PyErr (List μ))
    (getEV : μ → IsingOp → ExpectationValues)
    (backend : BackendState σ) (circuit : ECircuit) (target : QubitOp)
    (n : Nat) (epsilon delta : Option ℚ) (method : String)
    (st : BackendState σ) (res : ExpectationValues)
    (h : basicEstimatorRun run getEV backend circuit target (some n) epsilon delta method =
      (st, .ok res)) :
    st.n_samples = backend.n_samples := by
  unfold basicEstimatorRun at h
  split at h
  · simp at h
  · split at h
    · simp at h
    · split at h
      · dsimp only at h
        split at h
        · simp at h
        · rw [Prod.mk.injEq] at h
          rw [← h.1]
      · contradiction

/-- Witness for the amended C1: a concrete successful call restores the
concrete backend's `n_samples` from the override 3 back to 5. -/
theorem basicEstimator_restores_on_success_witness :
    (basicEstimatorRun
      (fun cs (b : BackendState Unit) => (b, Except.ok (cs.map (fun _ => ()))))
      (fun _ _ => ⟨[]⟩) ⟨some 5, ()⟩ [] [([(0, Basis.Z)], cone)]
      (some 3) none none "greedy").1.n_samples = some 5 := by
  exact basicEstimator_restores_on_success
    (fun cs (b : BackendState Unit) => (b, Except.ok (cs.map (fun _ => ()))))
    (fun _ _ => ⟨[]⟩) ⟨some 5, ()⟩ [] [([(0, Basis.Z)], cone)]
    3 none none "greedy" _ _ rfl

/-- Counterexample to C1 as stated: with the backend's run raising (and
touching nothing), a call that overrides `n_samples` from 5 to 3 propagates
the error with `n_samples` left at 3 — it is not restored to its value from
before the call. -/
theorem basicEstimator_no_restore_on_error :
    (basicEstimatorRun
        (fun _ (b : BackendState Unit) =>
          (b, (Except.error PyErr.backendFailure : Except PyErr (List Unit))))
        (fun (_ : Unit) (_ : IsingOp) => (⟨[]⟩ : ExpectationValues))
        ⟨some 5, ()⟩ [] [([(0, Basis.Z)], cone)]
        (some 3) none none "greedy").1.n_samples ≠
      (⟨some 5, ()⟩ : BackendState Unit).n_samples ∧
    (basicEstimatorRun
        (fun _ (b : BackendState Unit) =>
          (b, (Except.error PyErr.backendFailure : Except PyErr (List Unit))))
        (fun (_ : Unit) (_ : IsingOp) => (⟨[]⟩ : ExpectationValues))
        ⟨some 5, ()⟩ [] [([(0, Basis.Z)], cone)]
        (some 3) none none "greedy").2 = Except.error PyErr.backendFailure :=
  ⟨by decide, rfl⟩

/-- Every decimal digit produced is below 10. -/
theorem digitsLE_lt : ∀ (fuel n : Nat), ∀ d ∈ digitsLE fuel n, d < 10 := by
  intro fuel
  induction fuel with
  | zero => intro n d hd; simp [digitsLE] at hd
  | succ f ih =>
      intro n d hd
      rw [digitsLE] at hd
      by_cases hn : n = 0
      · simp [hn] at hd
      · rw [if_neg hn] at hd
        rcases List.mem_cons.mp hd with rfl | hd'
        · exact Nat.mod_lt _ (by norm_num)
        · exact ih _ d hd'

/-- With enough fuel, the digit list evaluates back to the number. -/
theorem valLE_digitsLE : ∀ (fuel n : Nat), n ≤ fuel → valLE (digitsLE fuel n) = n := by
  intro fuel
  induction fuel with
  | zero =>
      intro n h
      have hn : n = 0 := by omega
      subst hn
      rfl
  | succ f ih =>
      intro n h
      rw [digitsLE]
      by_cases hn : n = 0
      · simp [hn, valLE]
      · rw [if_neg hn, valLE]
        have hdiv : n / 10 ≤ f := by
          have := Nat.div_lt_self (Nat.pos_of_ne_zero hn) (by norm_num : (1 : Nat) < 10)
          omega
        rw [ih _ hdiv]
        exact Nat.mod_add_div n 10

/-- Digit characters decode back to their digit. -/
theorem decDigit_digitChar {d : Nat} (h : d < 10) : decDigit (digitChar d) = d := by
  interval_cases d <;> rfl

/-- Digit characters pass the digit test. -/
theorem isDigitChar_digitChar {d : Nat} (h : d < 10) :
    isDigitChar (digitChar d) = true := by
  interval_cases d <;> rfl

/-- A blocked head stops `takeWhile` immediately. -/
theorem headNot_takeWhile {p : Char → Bool} : ∀ {l : List Char},
    headNot p l → l.takeWhile p = [] := by
  intro l h
  cases l with
  | nil => rfl
  | cons c t =>
      simp only [headNot] at h
      simp [List.takeWhile_cons, h]

/-- A blocked head stops `dropWhile` immediately. -/
theorem headNot_dropWhile {p : Char → Bool} : ∀ {l : List Char},
    headNot p l → l.dropWhile p = l := by
  intro l h
  cases l with
  | nil => rfl
  | cons c t =>
      simp only [headNot] at h
      simp [List.dropWhile_cons, h]

/-- `takeWhile` passes over a wholly satisfying prefix. -/
theorem takeWhile_append_all {p : Char → Bool} :
    ∀ (l1 l2 : List Char), (∀ c ∈ l1, p c = true) →
    (l1 ++ l2).takeWhile p = l1 ++ l2.takeWhile p := by
  intro l1
  induction l1 with
  | nil => intro l2 _; rfl
  | cons c t ih =>
      intro l2 h
      have hc : p c = true := h c (List.mem_cons_self _ _)
      simp only [List.cons_append, List.takeWhile_cons, hc, if_true]
      rw [ih l2 (fun x hx => h x (List.mem_cons_of_mem _ hx))]

/-- `dropWhile` passes over a wholly satisfying prefix. -/
theorem dropWhile_append_all {p : Char → Bool} :
    ∀ (l1 l2 : List Char), (∀ c ∈ l1, p c = true) →
    (l1 ++ l2).dropWhile p = l2.dropWhile p := by
  intro l1
  induction l1 with
  | nil => intro l2 _; rfl
  | cons c t ih =>
      intro l2 h
      have hc : p c = true := h c (List.mem_cons_self _ _)
      simp only [List.cons_append, List.dropWhile_cons, hc, if_true]
      exact ih l2 (fun x hx => h x (List.mem_cons_of_mem _ hx))

/-- A rendered number consists of digit characters. -/
theorem encNat_digits (n : Nat) : ∀ c ∈ encNat n, isDigitChar c = true := by
  intro c hc
  rw [encNat, List.mem_reverse, List.mem_map] at hc
  obtain ⟨d, hd, rfl⟩ := hc
  exact isDigitChar_digitChar (digitsLE_lt n n d hd)

/-- Round trip of the decimal codec, up to a non-digit delimiter. -/
theorem parseNat_encNat (n : Nat) (rest : List Char) (h : headNot isDigitChar rest) :
    parseNat (encNat n ++ rest) = (n, rest) := by
  rw [parseNat,
    takeWhile_append_all (encNat n) rest (encNat_digits n),
    dropWhile_append_all (encNat n) rest (encNat_digits n),
    headNot_takeWhile h, headNot_dropWhile h, List.append_nil]
  rw [encNat, List.map_reverse, List.reverse_reverse, List.map_map]
  have hmap : (digitsLE n n).map (decDigit ∘ digitChar) = (digitsLE n n).map id :=
    List.map_congr_left (fun d hd => decDigit_digitChar (digitsLE_lt n n d hd))
  rw [hmap, List.map_id, valLE_digitsLE n n le_rfl]

/-- Round trip of the integer codec, up to a non-digit delimiter. -/
theorem parseInt_encInt (i : Int) (rest : List Char)
    (h : headNot isDigitChar rest) :
    parseInt (encInt i ++ rest) = some (i, rest) := by
  by_cases hi : i < 0
  · have habs : -((i.natAbs : Int)) = i := by omega
    rw [encInt, if_pos hi, List.cons_append, parseInt]
    rw [if_neg (by decide), if_pos rfl, parseNat_encNat i.natAbs rest h, habs]
  · have habs : ((i.natAbs : Int)) = i := by omega
    rw [encInt, if_neg hi, List.cons_append, parseInt]
    rw [if_pos rfl, parseNat_encNat i.natAbs rest h, habs]

/-- Round trip of the rational codec; the encoding carries its own
terminator. -/
theorem parseRat_encRat (q : ℚ) (rest : List Char) :
    parseRat (encRat q ++ rest) = some (q, rest) := by
  have h1 : headNot isDigitChar ('/' :: (encNat q.den ++ (' ' :: rest))) := by
    show isDigitChar '/' = false
    decide
  have h2 : headNot isDigitChar (' ' :: rest) := by
    show isDigitChar ' ' = false
    decide
  have hshape : encRat q ++ rest =
      encInt q.num ++ ('/' :: (encNat q.den ++ (' ' :: rest))) := by
    rw [encRat]
    simp
  rw [hshape, parseRat,
    parseInt_encInt q.num ('/' :: (encNat q.den ++ (' ' :: rest))) h1]
  dsimp only
  rw [if_pos rfl, parseNat_encNat q.den (' ' :: rest) h2]
  dsimp only
  rw [if_pos rfl, Rat.mkRat_self]

/-- One node of parse fuel per expression node suffices. -/
theorem parseExpr_encExpr (e : SymExpr) : ∀ (fuel : Nat) (rest : List Char),
    exprFuel e ≤ fuel → parseExpr fuel (encExpr e ++ rest) = some (e, rest) := by
  induction e with
  | const re im =>
      intro fuel rest hf
      obtain ⟨f, rfl⟩ : ∃ f, fuel = f + 1 := ⟨fuel - 1, by simp [exprFuel] at hf; omega⟩
      have hshape : encExpr (.const re im) ++ rest =
          'C' :: (encRat re ++ (encRat im ++ rest)) := by
        rw [encExpr]; simp
      rw [hshape, parseExpr, if_pos rfl, parseRat_encRat re (encRat im ++ rest)]
      dsimp only
      rw [parseRat_encRat im rest]
  | var name =>
      intro fuel rest hf
      obtain ⟨f, rfl⟩ : ∃ f, fuel = f + 1 := ⟨fuel - 1, by simp [exprFuel] at hf; omega⟩
      obtain ⟨data⟩ := name
      have h2 : headNot isDigitChar (' ' :: (data ++ rest)) := by
        show isDigitChar ' ' = false
        decide
      have hshape : encExpr (.var ⟨data⟩) ++ rest =
          'V' :: (encNat (String.mk data).length ++ (' ' :: (data ++ rest))) := by
        rw [encExpr]; simp
      rw [hshape, parseExpr, if_neg (by decide), if_pos rfl,
        parseNat_encNat (String.mk data).length (' ' :: (data ++ rest)) h2]
      dsimp only
      rw [if_pos rfl]
      have hlen : (String.mk data).length = data.length := rfl
      rw [hlen, List.take_left, List.drop_left]
  | add a b iha ihb =>
      intro fuel rest hf
      obtain ⟨f, rfl⟩ : ∃ f, fuel = f + 1 := ⟨fuel - 1, by simp [exprFuel] at hf; omega⟩
      rw [exprFuel] at hf
      have hshape : encExpr (.add a b) ++ rest =
          'A' :: (encExpr a ++ (encExpr b ++ rest)) := by
        rw [encExpr]; simp
      rw [hshape, parseExpr, if_neg (by decide), if_neg (by decide), if_pos rfl,
        iha f (encExpr b ++ rest) (by omega)]
      dsimp only
      rw [ihb f rest (by omega)]
  | mul a b iha ihb =>
      intro fuel rest hf
      obtain ⟨f, rfl⟩ : ∃ f, fuel = f + 1 := ⟨fuel - 1, by simp [exprFuel] at hf; omega⟩
      rw [exprFuel] at hf
      have hshape : encExpr (.mul a b) ++ rest =
          'M' :: (encExpr a ++ (encExpr b ++ rest)) := by
        rw [encExpr]; simp
      rw [hshape, parseExpr, if_neg (by decide), if_neg (by decide), if_neg (by decide),
        if_pos rfl, iha f (encExpr b ++ rest) (by omega)]
      dsimp only
      rw [ihb f rest (by omega)]

/-- The rendered text is at least as long as the node count. -/
theorem exprFuel_le_length (e : SymExpr) : exprFuel e ≤ (encExpr e).length := by
  induction e with
  | const re im => simp [exprFuel, encExpr]
  | var name => simp [exprFuel, encExpr]
  | add a b iha ihb => simp [exprFuel, encExpr]; omega
  | mul a b iha ihb => simp [exprFuel, encExpr]; omega

/-- Entry-level round trip: parsing a rendered expression string returns the
expression. -/
theorem loadExpr_exprToString (e : SymExpr) : loadExpr (exprToString e) = some e := by
  have hdata : (exprToString e).data = encExpr e := rfl
  have hparse := parseExpr_encExpr e (encExpr e).length [] (exprFuel_le_length e)
  rw [List.append_nil] at hparse
  rw [loadExpr, hdata, hparse]

/-- Row-level round trip through the expression strings. -/
theorem mapOpt_loadExpr_map (row : List SymExpr) :
    mapOpt loadExpr (row.map exprToString) = some row := by
  induction row with
  | nil => rfl
  | cons e rest ih => rw [List.map_cons, mapOpt, loadExpr_exprToString, ih]

/-- Matrix-level round trip through the serialized rows. -/
theorem mapOpt_rows_map (matrix : List (List SymExpr)) :
    mapOpt (fun row : GateRow => mapOpt loadExpr row.elements)
      (matrix.map (fun row => ⟨row.map exprToString⟩)) = some matrix := by
  induction matrix with
  | nil => rfl
  | cons row rest ih => rw [List.map_cons, mapOpt, mapOpt_loadExpr_map, ih]

/-- The executable validity check agrees with the validity proposition. -/
theorem validB_iff (g : Gate) : g.validB = true ↔ g.valid := by
  rw [Gate.validB, Gate.valid]
  simp only [Bool.and_eq_true, decide_eq_true_eq, List.all_eq_true, beq_iff_eq]
  constructor
  · rintro ⟨⟨h1, h2⟩, h3⟩
    refine ⟨h1, fun row hr => h2 row hr, ?_⟩
    have hsub := List.dedup_sublist g.qubits
    have := hsub.eq_of_length h3
    exact List.dedup_eq_self.mp this
  · rintro ⟨h1, h2, h3⟩
    refine ⟨⟨h1, fun row hr => h2 row hr⟩, ?_⟩
    rw [List.dedup_eq_self.mpr h3]

/-- C8: for every valid gate, loading the saved file content yields the gate
back, and loading the serializable dict yields the gate back (round trip
through both forms). -/
theorem gate_round_trip (g : Gate) (h : g.valid) :
    Gate.load (.file g.save) = some g ∧
    Gate.load (.record g.to_dict_serializable) = some g := by
  have hload : loadGateRecord g.to_dict_serializable = some g := by
    rw [loadGateRecord, Gate.to_dict_serializable]
    rw [mapOpt_rows_map g.matrix]
    have hvb : Gate.validB ⟨g.matrix, g.qubits⟩ = true := (validB_iff g).mpr h
    simp [hvb]
  exact ⟨hload, hload⟩

/-- Witness for C8: round trip of the concrete Pauli-X gate on qubit 0. -/
theorem gate_round_trip_witness :
    Gate.load (.file (Gate.save
      ⟨[[SymExpr.const 0 0, SymExpr.const 1 0],
        [SymExpr.const 1 0, SymExpr.const 0 0]], [0]⟩)) =
      some ⟨[[SymExpr.const 0 0, SymExpr.const 1 0],
        [SymExpr.const 1 0, SymExpr.const 0 0]], [0]⟩ ∧
    Gate.load (.record (Gate.to_dict_serializable
      ⟨[[SymExpr.const 0 0, SymExpr.const 1 0],
        [SymExpr.const 1 0, SymExpr.const 0 0]], [0]⟩)) =
      some ⟨[[SymExpr.const 0 0, SymExpr.const 1 0],
        [SymExpr.const 1 0, SymExpr.const 0 0]], [0]⟩ :=
  gate_round_trip
    ⟨[[SymExpr.const 0 0, SymExpr.const 1 0],
      [SymExpr.const 1 0, SymExpr.const 0 0]], [0]⟩ (by decide)

end ZQuantum
